import Mathlib

/-!
Verification of the pybedlite overlap-detector specification against a shallow
embedding of the code in src/pybedlite.

Conventions of the embedding:
* Python integers are Lean `Int` (arbitrary precision, as in Python).
* Fallible construction (attrs validators, `__attrs_post_init__`) is modelled by
  constructor functions returning `Except String _`; the structure value is only
  produced when every check passes, mirroring how a Python object never exists
  in an invalid state.
* The per-contig interval tree is the cgranges C extension, which is compiled
  from sources that are not part of src/; it is modelled from the spec
  (section 4.3 of spec.md) below, see `queryOverlapAux` and friends.
-/

namespace Pybedlite

/-- Enumeration of possible strands for a bed record, from bed_record.py
(`BedStrand`): Positive is "+", Negative is "-". -/
inductive BedStrand where
  | Positive
  | Negative
  deriving DecidableEq, Repr

/-- A region mapping to a reference sequence that is 0-based and open-ended,
from overlap_detector.py (`Interval`).  The raw structure; validated
construction is `Interval.make`. -/
structure Interval where
  refname : String
  start : Int
  «end» : Int
  negative : Bool := false
  name : Option String := none
  deriving DecidableEq, Repr

/-- Validated construction of an `Interval`, modelling
`Interval.__attrs_post_init__` in overlap_detector.py: raises (here: returns
an error) when `start < 0` or `end <= start`; otherwise the frozen object is
produced. -/
def Interval.make (refname : String) (start «end» : Int)
    (negative : Bool) (name : Option String) :
    Except String Interval :=
  if start < 0 then .error "start is out of range"
  else if «end» ≤ start then .error "end <= start"
  else .ok { refname := refname, start := start, «end» := «end»,
             negative := negative, name := name }

/-- Overlap length between two intervals, from overlap_detector.py
(`Interval.overlap`): zero when the reference names differ, otherwise
`min(end, other.end) - max(start, other.start)` clamped at zero. -/
def Interval.overlap (self other : Interval) : Int :=
  if self.refname ≠ other.refname then 0
  else
    let ov := min self.«end» other.«end» - max self.start other.start
    if ov > 0 then ov else 0

/-- Length of an interval, from overlap_detector.py (`Interval.length`). -/
def Interval.length (self : Interval) : Int :=
  self.«end» - self.start

/-- Lightweight class for storing BED records, from bed_record.py
(`BedRecord`).  The raw structure; validated construction is
`BedRecord.make`. -/
structure BedRecord where
  chrom : String
  start : Int
  «end» : Int
  name : Option String := none
  score : Option Int := none
  strand : Option BedStrand := none
  thick_start : Option Int := none
  thick_end : Option Int := none
  item_rgb : Option (Int × Int × Int) := none
  block_count : Option Int := none
  block_sizes : Option (List Int) := none
  block_starts : Option (List Int) := none
  deriving DecidableEq, Repr

/-- The `negative` property of a bed record, from bed_record.py: true iff the
record's strand is `BedStrand.Negative` (unstranded counts as positive). -/
def BedRecord.negative (r : BedRecord) : Bool :=
  decide (r.strand = some BedStrand.Negative)

/-- The `refname` property of a bed record, from bed_record.py: its chrom. -/
def BedRecord.refname (r : BedRecord) : String :=
  r.chrom

/-- Validated construction of a `BedRecord`, modelling the attrs validators of
bed_record.py run in field order: `_validate_start` (end must exceed start),
`_validate_thick_definitions` (thick_start and thick_end defined together),
`_validate_block_counts` (block_count defined iff block_sizes and block_starts
are, with matching lengths), and `_validate_bounds` (first block start is zero
and the last block ends at the interval end; Python's subscripting of an empty
list is an index error, modelled as an error as well). -/
def BedRecord.make (chrom : String) (start «end» : Int)
    (name : Option String) (score : Option Int)
    (strand : Option BedStrand)
    (thick_start : Option Int) (thick_end : Option Int)
    (item_rgb : Option (Int × Int × Int))
    (block_count : Option Int)
    (block_sizes : Option (List Int))
    (block_starts : Option (List Int)) :
    Except String BedRecord :=
  if ¬ («end» > start) then
    .error "End of interval must be greater than start of interval."
  else if thick_start = none ∧ thick_end ≠ none then
    .error "Thick end cannot be defined if thick start is not"
  else if thick_start ≠ none ∧ thick_end = none then
    .error "Thick start cannot be defined if thick end is not"
  else if block_count = none ∧ block_sizes ≠ none then
    .error "Block count must be defined if block sizes is defined"
  else if block_count = none ∧ block_starts ≠ none then
    .error "Block count must be defined if block starts is defined"
  else if block_count ≠ none ∧ block_sizes = none then
    .error "Block sizes cannot be undefined if block count is defined"
  else if block_count ≠ none ∧ block_starts = none then
    .error "Block starts cannot be undefined if block count is defined"
  else if block_count ≠ none ∧
      ¬ (((block_sizes.getD []).length : Int) = block_count.getD 0) then
    .error "Number of items in block_sizes must match block_counts"
  else if block_count ≠ none ∧
      ¬ (((block_starts.getD []).length : Int) = block_count.getD 0) then
    .error "Number of items in block_starts must match block_counts"
  else
    match block_starts with
    | none =>
      .ok { chrom := chrom, start := start, «end» := «end», name := name,
            score := score, strand := strand, thick_start := thick_start,
            thick_end := thick_end, item_rgb := item_rgb,
            block_count := block_count, block_sizes := block_sizes,
            block_starts := block_starts }
    | some bs =>
      match bs.head?, bs.getLast?, (block_sizes.getD []).getLast? with
      | some b0, some blast, some slast =>
        if ¬ (b0 = 0) then
          .error "Block start at first position should be zero"
        else if ¬ («end» = start + blast + slast) then
          .error "overall interval end should be equal to the last defined block's end."
        else
          .ok { chrom := chrom, start := start, «end» := «end», name := name,
                score := score, strand := strand, thick_start := thick_start,
                thick_end := thick_end, item_rgb := item_rgb,
                block_count := block_count, block_sizes := block_sizes,
                block_starts := block_starts }
      | _, _, _ => .error "list index out of range"

/-- Construct an `Interval` from a `BedRecord`, from overlap_detector.py
(`Interval.from_bedrecord`); runs the `Interval` validators, so it fails for
records whose coordinates violate the `Interval` invariants. -/
def Interval.from_bedrecord (record : BedRecord) : Except String Interval :=
  Interval.make record.chrom record.start record.«end»
    (decide (record.strand = some BedStrand.Negative)) record.name

/-- Raw-structure default-field helper used when stating theorems about
intervals: a plain unstranded, unnamed interval value. -/
def Interval.plain (refname : String) (start «end» : Int) : Interval :=
  { refname := refname, start := start, «end» := «end»,
    negative := false, name := none }

/-- Construct a `BedRecord` from an `Interval`, from bed_record.py
(`BedRecord.from_interval`); runs the `BedRecord` validators. -/
def BedRecord.from_interval (interval : Interval) : Except String BedRecord :=
  BedRecord.make interval.refname interval.start interval.«end»
    interval.name none
    (some (if interval.negative then BedStrand.Negative else BedStrand.Positive))
    none none none none none none

/-- Composition used for the round-trip claim:
`BedRecord.from_interval(Interval.from_bedrecord(r))`. -/
def roundTrip (r : BedRecord) : Except String BedRecord :=
  (Interval.from_bedrecord r).bind BedRecord.from_interval

/-- The Span protocol of overlap_detector.py as a capability class: a reference
sequence name, a 0-based start and a 0-based open-ended end.  The `negative`
accessor models `OverlapDetector._negative`, i.e. Python's
`getattr(interval, "negative", False)`: for a type without strand information
the instance returns `false` (absent strand counts as positive). -/
class Span (α : Type) where
  refname : α → String
  start : α → Int
  «end» : α → Int
  negative : α → Bool

instance : Span Interval where
  refname := Interval.refname
  start := Interval.start
  «end» := Interval.«end»
  negative := Interval.negative

instance : Span BedRecord where
  refname := BedRecord.refname
  start := BedRecord.start
  «end» := BedRecord.«end»
  negative := BedRecord.negative

/-- A bare query span: what the query argument of the detector methods exposes
through the Span protocol (refname, start, end). -/
structure QuerySpan where
  refname : String
  start : Int
  «end» : Int
  deriving DecidableEq, Repr

/-- Association-list lookup modelling a Python dict read (dicts in the
detector are keyed by refname). -/
def lookupA {β : Type} (k : String) : List (String × β) → Option β
  | [] => none
  | (k', v) :: rest => if k = k' then some v else lookupA k rest

/-- Association-list update modelling a Python dict write: overwrite the
binding if the key is present, otherwise append it (Python dicts preserve
insertion order of keys). -/
def setA {β : Type} (k : String) (v : β) : List (String × β) → List (String × β)
  | [] => [(k, v)]
  | (k', v') :: rest => if k = k' then (k, v) :: rest else (k', v') :: setA k v rest

/-- An entry of the per-contig cgranges tree: the interval coordinates plus
the label passed to `tree.add`, which in overlap_detector.py is the index of
the interval in the per-contig interval list. -/
structure TreeEntry where
  start : Int
  «end» : Int
  idx : Nat
  deriving DecidableEq, Repr

/-- Modelled from the spec: the contents of a PerContigIndex built by the
`tree.add` calls of `OverlapDetector.add` — one (start, end, originalIndex)
entry per stored interval, indices counting up from the given offset in
insertion order. -/
def buildEntries {α : Type} [Span α] : List α → Nat → List TreeEntry
  | [], _ => []
  | v :: rest, j =>
    { start := Span.start v, «end» := Span.«end» v, idx := j } ::
      buildEntries rest (j + 1)

/-- Modelled from the spec: the sortedByStart array of a PerContigIndex
(spec section 4.3, Build): the entries sorted by start ascending with a
stable sort, ties keeping insertion order. -/
def sortEntries (entries : List TreeEntry) : List TreeEntry :=
  List.insertionSort (fun e1 e2 => e1.start ≤ e2.start) entries

/-- Modelled from the spec: the maxEndAugment value of node i of the implicit
binary tree over the sorted entry array (children of node i at 2i+1 and 2i+2):
the maximum end across node i's subtree, computed by the recurrence
maxEndAugment[i] = max(end[i], maxEndAugment[leftChild], maxEndAugment[rightChild]),
children outside the array contributing nothing.  The extra gas argument makes
the recursion structural; `maxEndAugment` supplies enough gas. -/
def maxEndAugAux (a : List TreeEntry) : Nat → Nat → Int
  | 0, _ => 0
  | g + 1, i =>
    if h : i < a.length then
      let cur := (a.get ⟨i, h⟩).«end»
      let l := if 2 * i + 1 < a.length then maxEndAugAux a g (2 * i + 1) else cur
      let r := if 2 * i + 2 < a.length then maxEndAugAux a g (2 * i + 2) else cur
      max cur (max l r)
    else 0

/-- Modelled from the spec: maxEndAugment at node i (see `maxEndAugAux`). -/
def maxEndAugment (a : List TreeEntry) (i : Nat) : Int :=
  maxEndAugAux a (a.length - i) i

/-- Modelled from the spec: the queryOverlap traversal of a PerContigIndex
(spec section 4.3, Query), the algorithmic core of the cgranges extension
whose C sources are not under src/.  Depth-first traversal from node i of the
implicit tree: prune a subtree when its maxEndAugment is at most qstart; visit
the left child, emit node i's original index when start[i] < qend and
end[i] > qstart, and visit the right child only when start[i] < qend.  The
gas argument makes the recursion structural; `queryOverlap` supplies enough
gas (child indices strictly exceed i, so a.length - i bounds the depth). -/
def queryOverlapAux (a : List TreeEntry) (qstart qend : Int) :
    Nat → Nat → List Nat
  | 0, _ => []
  | g + 1, i =>
    if h : i < a.length then
      if maxEndAugment a i ≤ qstart then []
      else
        let e := a.get ⟨i, h⟩
        let leftHits := queryOverlapAux a qstart qend g (2 * i + 1)
        let selfHits := if e.start < qend ∧ qstart < e.«end» then [e.idx] else []
        let rightHits :=
          if e.start < qend then queryOverlapAux a qstart qend g (2 * i + 2)
          else []
        leftHits ++ selfHits ++ rightHits
    else []

/-- Modelled from the spec: queryOverlap of a PerContigIndex, started at the
root of the implicit tree. -/
def queryOverlap (a : List TreeEntry) (qstart qend : Int) : List Nat :=
  queryOverlapAux a qstart qend a.length 0

/-- The OverlapDetector state, from overlap_detector.py: the per-contig
interval lists and the per-contig indexed flags, both dicts keyed by refname.
The per-contig cgranges tree is not stored separately: its contents are
exactly the (start, end, index) triples of the interval list (tree.add is
called once per append, labelling with the list position), so queries
rebuild them with `buildEntries`. -/
structure OverlapDetector (α : Type) where
  _refname_to_intervals : List (String × List α)
  _refname_to_indexed : List (String × Bool)
  deriving Repr

/-- A fresh OverlapDetector with no intervals, from
`OverlapDetector.__init__`. -/
def OverlapDetector.empty (α : Type) : OverlapDetector α :=
  { _refname_to_intervals := [], _refname_to_indexed := [] }

/-- Adds an interval to the detector, from `OverlapDetector.add`: create the
per-contig structures if the refname is new, append the interval to the
per-contig list, add the matching entry to the tree, and flag the contig as
needing indexing. -/
def OverlapDetector.add {α : Type} [Span α] (d : OverlapDetector α)
    (interval : α) : OverlapDetector α :=
  let r := Span.refname interval
  let cur := (lookupA r d._refname_to_intervals).getD []
  { _refname_to_intervals := setA r (cur ++ [interval]) d._refname_to_intervals,
    _refname_to_indexed := setA r false d._refname_to_indexed }

/-- Adds each interval in turn, from `OverlapDetector.add_all`. -/
def OverlapDetector.add_all {α : Type} [Span α] (d : OverlapDetector α)
    (intervals : List α) : OverlapDetector α :=
  intervals.foldl OverlapDetector.add d

/-- The detector obtained by adding the given intervals to a fresh detector;
every reachable detector state is of this shape, since `__init__` starts empty
and `add` is the only mutator. -/
def OverlapDetector.ofList {α : Type} [Span α] (intervals : List α) :
    OverlapDetector α :=
  (OverlapDetector.empty α).add_all intervals

/-- Iteration over the detector, from `OverlapDetector.__iter__`:
itertools.chain over the per-contig interval lists, in dict insertion order,
without deduplication. -/
def OverlapDetector.toList {α : Type} (d : OverlapDetector α) : List α :=
  (d._refname_to_intervals.map Prod.snd).flatten

/-- The sort key of `OverlapDetector.get_overlaps`: the tuple
(start ascending, end ascending, negative flag ascending — positive before
negative, an absent strand counting as positive via `Span.negative` — and
refname ascending lexicographically), compared lexicographically.  The
refname component compares by character list, matching Python string
comparison. -/
def sortKey {α : Type} [Span α] (intv : α) :
    Int ×ₗ (Int ×ₗ (Bool ×ₗ List Char)) :=
  toLex (Span.start intv,
    toLex (Span.«end» intv,
      toLex (Span.negative intv, (Span.refname intv).data)))

instance {α : Type} [Span α] :
    DecidableRel (fun x y : α => sortKey x ≤ sortKey y) :=
  fun x y => inferInstanceAs (Decidable (sortKey x ≤ sortKey y))

instance {α : Type} [Span α] :
    IsTotal α (fun x y : α => sortKey x ≤ sortKey y) :=
  ⟨fun a b => le_total (sortKey a) (sortKey b)⟩

instance {α : Type} [Span α] :
    IsTrans α (fun x y : α => sortKey x ≤ sortKey y) :=
  ⟨fun _ _ _ h h' => le_trans h h'⟩

/-- Returns the intervals overlapping the query, from
`OverlapDetector.get_overlaps`: absent contig yields the empty list; otherwise
the tree (indexed on demand) is queried, the returned labels are mapped back
to the stored intervals, collapsed to unique values (the Python set
comprehension), and sorted by `sortKey`. -/
def OverlapDetector.get_overlaps {α : Type} [Span α] [DecidableEq α]
    (d : OverlapDetector α) (interval : QuerySpan) : List α :=
  match lookupA interval.refname d._refname_to_intervals with
  | none => []
  | some ref_intervals =>
    let a := sortEntries (buildEntries ref_intervals 0)
    let idxs := queryOverlap a interval.start interval.«end»
    let intervals := (idxs.filterMap fun k => ref_intervals[k]?).dedup
    List.insertionSort (fun x y => sortKey x ≤ sortKey y) intervals

/-- Whether the query overlaps any stored interval, from
`OverlapDetector.overlaps_any`: false when the contig has no tree, otherwise
true iff the tree traversal produces at least one hit. -/
def OverlapDetector.overlaps_any {α : Type} [Span α]
    (d : OverlapDetector α) (interval : QuerySpan) : Bool :=
  match lookupA interval.refname d._refname_to_intervals with
  | none => false
  | some ref_intervals =>
    let a := sortEntries (buildEntries ref_intervals 0)
    !(queryOverlap a interval.start interval.«end»).isEmpty

/-- Stored intervals wholly enclosing the query, from
`OverlapDetector.get_enclosing_intervals`: get_overlaps filtered to results
whose span contains the query span. -/
def OverlapDetector.get_enclosing_intervals {α : Type} [Span α] [DecidableEq α]
    (d : OverlapDetector α) (interval : QuerySpan) : List α :=
  (d.get_overlaps interval).filter fun i =>
    decide (interval.start ≥ Span.start i) && decide (interval.«end» ≤ Span.«end» i)

/-- Stored intervals wholly enclosed by the query, from
`OverlapDetector.get_enclosed`: get_overlaps filtered to results contained in
the query span. -/
def OverlapDetector.get_enclosed {α : Type} [Span α] [DecidableEq α]
    (d : OverlapDetector α) (interval : QuerySpan) : List α :=
  (d.get_overlaps interval).filter fun i =>
    decide (Span.start i ≥ interval.start) && decide (Span.«end» i ≤ interval.«end»)

/-- Whether issuing a query would invoke tree.index(), from the query methods
of overlap_detector.py: a tree exists for the contig and its indexed flag is
false.  Both query methods read but never write the flag dict (and mutate no
other detector state), so the detector state after a query is the state
before it. -/
def OverlapDetector.query_triggers_rebuild {α : Type}
    (d : OverlapDetector α) (interval : QuerySpan) : Bool :=
  match lookupA interval.refname d._refname_to_intervals with
  | none => false
  | some _ => !((lookupA interval.refname d._refname_to_indexed).getD false)

/-- The per-contig interval list the detector holds for a refname (empty when
the refname has never been seen); a convenience view of the state. -/
def OverlapDetector.bucketOf {α : Type} (d : OverlapDetector α) (r : String) :
    List α :=
  (lookupA r d._refname_to_intervals).getD []

theorem lookupA_setA_self {β : Type} (k : String) (v : β)
    (l : List (String × β)) : lookupA k (setA k v l) = some v := by
  induction l with
  | nil => simp [setA, lookupA]
  | cons hd tl ih =>
    obtain ⟨k', v'⟩ := hd
    by_cases h : k = k' <;> simp [setA, lookupA, h, ih]

theorem lookupA_setA_ne {β : Type} {k k' : String} (hne : k ≠ k') (v : β)
    (l : List (String × β)) : lookupA k (setA k' v l) = lookupA k l := by
  induction l with
  | nil => simp [setA, lookupA, hne]
  | cons hd tl ih =>
    obtain ⟨k'', v''⟩ := hd
    by_cases h : k' = k'' <;> by_cases h2 : k = k'' <;>
      simp [setA, lookupA, h, h2, ih, hne] <;> simp_all

theorem bucketOf_add {α : Type} [Span α] (d : OverlapDetector α) (v : α)
    (r : String) :
    (d.add v).bucketOf r =
      d.bucketOf r ++ (if Span.refname v = r then [v] else []) := by
  unfold OverlapDetector.add OverlapDetector.bucketOf
  by_cases h : Span.refname v = r
  · subst h
    simp [lookupA_setA_self]
  · rw [if_neg h]
    have : r ≠ Span.refname v := fun hr => h hr.symm
    simp [lookupA_setA_ne this]

theorem bucketOf_add_all {α : Type} [Span α] (d : OverlapDetector α)
    (ivs : List α) (r : String) :
    (d.add_all ivs).bucketOf r =
      d.bucketOf r ++ ivs.filter (fun v => decide (Span.refname v = r)) := by
  induction ivs generalizing d with
  | nil => simp [OverlapDetector.add_all]
  | cons hd tl ih =>
    have step : (d.add_all (hd :: tl)) = (d.add hd).add_all tl := rfl
    rw [step, ih, bucketOf_add]
    by_cases h : Span.refname hd = r <;> simp [h]

theorem bucketOf_ofList {α : Type} [Span α] (ivs : List α) (r : String) :
    (OverlapDetector.ofList ivs).bucketOf r =
      ivs.filter (fun v => decide (Span.refname v = r)) := by
  unfold OverlapDetector.ofList
  rw [bucketOf_add_all]
  simp [OverlapDetector.empty, OverlapDetector.bucketOf, lookupA]

theorem lookupA_ofList_none {α : Type} [Span α] (ivs : List α) (r : String)
    (h : lookupA r (OverlapDetector.ofList ivs)._refname_to_intervals = none) :
    ivs.filter (fun v => decide (Span.refname v = r)) = [] := by
  have := bucketOf_ofList ivs r
  unfold OverlapDetector.bucketOf at this
  rw [h] at this
  simpa using this.symm

theorem lookupA_ofList_some {α : Type} [Span α] (ivs : List α) (r : String)
    (l : List α)
    (h : lookupA r (OverlapDetector.ofList ivs)._refname_to_intervals = some l) :
    l = ivs.filter (fun v => decide (Span.refname v = r)) := by
  have := bucketOf_ofList ivs r
  unfold OverlapDetector.bucketOf at this
  rw [h] at this
  simpa using this

/-- Membership of slot j in the subtree rooted at slot i of the implicit
binary tree over an array of length n (children of node i at 2i+1 and
2i+2). -/
inductive InSub (n : Nat) : Nat → Nat → Prop where
  | self {i : Nat} : i < n → InSub n i i
  | left {i j : Nat} : InSub n (2 * i + 1) j → InSub n i j
  | right {i j : Nat} : InSub n (2 * i + 2) j → InSub n i j

theorem InSub.le_lt {n i j : Nat} (h : InSub n i j) : i ≤ j ∧ j < n := by
  induction h with
  | self h => exact ⟨Nat.le_refl _, h⟩
  | left _ ih => omega
  | right _ ih => omega

theorem InSub.trans {n i j k : Nat} (h1 : InSub n i j) (h2 : InSub n j k) :
    InSub n i k := by
  induction h1 with
  | self _ => exact h2
  | left _ ih => exact InSub.left (ih h2)
  | right _ ih => exact InSub.right (ih h2)

theorem InSub.root {n : Nat} : ∀ {j : Nat}, j < n → InSub n 0 j := by
  intro j
  induction j using Nat.strong_induction_on with
  | _ j ih =>
    intro hj
    rcases Nat.eq_zero_or_pos j with h0 | hpos
    · subst h0
      exact InSub.self hj
    · have hparent : j = 2 * ((j - 1) / 2) + 1 ∨ j = 2 * ((j - 1) / 2) + 2 := by
        omega
    -- the parent of j is (j-1)/2, and j is one of its two children
      have hp : InSub n 0 ((j - 1) / 2) := ih _ (by omega) (by omega)
      rcases hparent with he | he
      · have hstep : InSub n (2 * ((j - 1) / 2) + 1) j := by
          rw [← he]; exact InSub.self hj
        exact hp.trans (InSub.left hstep)
      · have hstep : InSub n (2 * ((j - 1) / 2) + 2) j := by
          rw [← he]; exact InSub.self hj
        exact hp.trans (InSub.right hstep)

theorem maxEndAugAux_out {a : List TreeEntry} {i : Nat} (h : a.length ≤ i) :
    ∀ g, maxEndAugAux a g i = 0 := by
  intro g
  cases g with
  | zero => rfl
  | succ g => simp [maxEndAugAux, Nat.not_lt.mpr h]

theorem maxEndAugAux_gas {a : List TreeEntry} :
    ∀ (g1 i g2 : Nat), a.length - i ≤ g1 → a.length - i ≤ g2 →
      maxEndAugAux a g1 i = maxEndAugAux a g2 i := by
  intro g1
  induction g1 with
  | zero =>
    intro i g2 h1 _
    have hi : a.length ≤ i := by omega
    rw [maxEndAugAux_out hi, maxEndAugAux_out hi]
  | succ g ih =>
    intro i g2 h1 h2
    by_cases hi : i < a.length
    · obtain ⟨g2', rfl⟩ : ∃ g2', g2 = g2' + 1 := by
        cases g2 with
        | zero => omega
        | succ k => exact ⟨k, rfl⟩
      have hl : a.length - (2 * i + 1) ≤ g := by omega
      have hr : a.length - (2 * i + 2) ≤ g := by omega
      have hl2 : a.length - (2 * i + 1) ≤ g2' := by omega
      have hr2 : a.length - (2 * i + 2) ≤ g2' := by omega
      simp only [maxEndAugAux, dif_pos hi, ih (2 * i + 1) g2' hl hl2,
        ih (2 * i + 2) g2' hr hr2]
    · have hi' : a.length ≤ i := by omega
      rw [maxEndAugAux_out hi', maxEndAugAux_out hi']

theorem maxEndAugment_unfold {a : List TreeEntry} {i : Nat} (h : i < a.length) :
    maxEndAugment a i =
      max (a.get ⟨i, h⟩).«end»
        (max
          (if 2 * i + 1 < a.length then maxEndAugment a (2 * i + 1)
           else (a.get ⟨i, h⟩).«end»)
          (if 2 * i + 2 < a.length then maxEndAugment a (2 * i + 2)
           else (a.get ⟨i, h⟩).«end»)) := by
  unfold maxEndAugment
  obtain ⟨g, hg⟩ : ∃ g, a.length - i = g + 1 := ⟨a.length - i - 1, by omega⟩
  rw [hg]
  simp only [maxEndAugAux, dif_pos h]
  have hl : 2 * i + 1 < a.length →
      maxEndAugAux a g (2 * i + 1) =
        maxEndAugAux a (a.length - (2 * i + 1)) (2 * i + 1) :=
    fun _ => maxEndAugAux_gas g (2 * i + 1) _ (by omega) (by omega)
  have hr : 2 * i + 2 < a.length →
      maxEndAugAux a g (2 * i + 2) =
        maxEndAugAux a (a.length - (2 * i + 2)) (2 * i + 2) :=
    fun _ => maxEndAugAux_gas g (2 * i + 2) _ (by omega) (by omega)
  by_cases hli : 2 * i + 1 < a.length <;> by_cases hri : 2 * i + 2 < a.length <;>
    simp [hli, hri, hl, hr]

theorem le_maxEndAugment {a : List TreeEntry} {i j : Nat}
    (h : InSub a.length i j) :
    ∀ hj : j < a.length, (a.get ⟨j, hj⟩).«end» ≤ maxEndAugment a i := by
  induction h with
  | self hi =>
    intro hj
    rw [maxEndAugment_unfold hi]
    exact le_max_left _ _
  | @left i' j' h' ih =>
    intro hj
    have hb := h'.le_lt
    have hi : i' < a.length := by omega
    rw [maxEndAugment_unfold hi]
    have hchild : 2 * i' + 1 < a.length := by omega
    calc (a.get ⟨j', hj⟩).«end» ≤ maxEndAugment a (2 * i' + 1) := ih hj
      _ ≤ _ := by
        rw [if_pos hchild]
        exact le_trans (le_max_left _ _) (le_max_right _ _)
  | @right i' j' h' ih =>
    intro hj
    have hb := h'.le_lt
    have hi : i' < a.length := by omega
    rw [maxEndAugment_unfold hi]
    have hchild : 2 * i' + 2 < a.length := by omega
    calc (a.get ⟨j', hj⟩).«end» ≤ maxEndAugment a (2 * i' + 2) := ih hj
      _ ≤ _ := by
        rw [if_pos hchild]
        exact le_trans (le_max_right _ _) (le_max_right _ _)

/-- The sorted-by-start property of the array the traversal runs over. -/
def SortedStarts (a : List TreeEntry) : Prop :=
  ∀ (i j : Nat) (hi : i < a.length) (hj : j < a.length), i ≤ j →
    (a.get ⟨i, hi⟩).start ≤ (a.get ⟨j, hj⟩).start

theorem queryOverlapAux_out {a : List TreeEntry} {qs qe : Int} {i : Nat}
    (h : a.length ≤ i) : ∀ g, queryOverlapAux a qs qe g i = [] := by
  intro g
  cases g with
  | zero => rfl
  | succ g => simp [queryOverlapAux, Nat.not_lt.mpr h]

/-- Soundness and completeness of the spec-modelled traversal: starting at
node i with enough gas, the emitted labels are exactly the idx fields of the
slots of i's subtree whose interval satisfies start < qend and end > qstart.
Pruning by maxEndAugment and by the start ordering removes no qualifying
slot. -/
theorem mem_queryOverlapAux {a : List TreeEntry} (hs : SortedStarts a)
    {qs qe : Int} :
    ∀ g i k, a.length - i ≤ g →
      (k ∈ queryOverlapAux a qs qe g i ↔
        ∃ (j : Nat) (hj : j < a.length), InSub a.length i j ∧
          (a.get ⟨j, hj⟩).idx = k ∧ (a.get ⟨j, hj⟩).start < qe ∧
          qs < (a.get ⟨j, hj⟩).«end») := by
  intro g
  induction g with
  | zero =>
    intro i k hg
    have hi : a.length ≤ i := by omega
    rw [queryOverlapAux_out hi]
    simp only [List.not_mem_nil, false_iff]
    rintro ⟨j, hj, hsub, -⟩
    have := hsub.le_lt
    omega
  | succ g ih =>
    intro i k hg
    by_cases hi : i < a.length
    · simp only [queryOverlapAux, dif_pos hi]
      by_cases hprune : maxEndAugment a i ≤ qs
      · rw [if_pos hprune]
        simp only [List.not_mem_nil, false_iff]
        rintro ⟨j, hj, hsub, -, -, hq⟩
        have := le_maxEndAugment hsub hj
        omega
      · rw [if_neg hprune]
        have hgl : a.length - (2 * i + 1) ≤ g := by omega
        have hgr : a.length - (2 * i + 2) ≤ g := by omega
        simp only [List.mem_append, or_assoc]
        constructor
        · rintro (hmem | hmem | hmem)
          · obtain ⟨j, hj, hsub, hrest⟩ := (ih (2 * i + 1) k hgl).mp hmem
            exact ⟨j, hj, InSub.left hsub, hrest⟩
          · by_cases hcond : (a.get ⟨i, hi⟩).start < qe ∧
                qs < (a.get ⟨i, hi⟩).«end»
            · rw [if_pos hcond] at hmem
              simp only [List.mem_singleton] at hmem
              exact ⟨i, hi, InSub.self hi, hmem.symm, hcond.1, hcond.2⟩
            · rw [if_neg hcond] at hmem
              simp at hmem
          · by_cases hstart : (a.get ⟨i, hi⟩).start < qe
            · rw [if_pos hstart] at hmem
              obtain ⟨j, hj, hsub, hrest⟩ := (ih (2 * i + 2) k hgr).mp hmem
              exact ⟨j, hj, InSub.right hsub, hrest⟩
            · rw [if_neg hstart] at hmem
              simp at hmem
        · rintro ⟨j, hj, hsub, hidx, hlt, hgt⟩
          cases hsub with
          | self _ =>
            refine Or.inr (Or.inl ?_)
            rw [if_pos ⟨hlt, hgt⟩]
            simp [hidx.symm]
          | left hsub' =>
            exact Or.inl ((ih (2 * i + 1) k hgl).mpr
              ⟨j, hj, hsub', hidx, hlt, hgt⟩)
          | right hsub' =>
            refine Or.inr (Or.inr ?_)
            have hij : 2 * i + 2 ≤ j := hsub'.le_lt.1
            have hstart : (a.get ⟨i, hi⟩).start < qe :=
              lt_of_le_of_lt (hs i j hi hj (by omega)) hlt
            rw [if_pos hstart]
            exact (ih (2 * i + 2) k hgr).mpr ⟨j, hj, hsub', hidx, hlt, hgt⟩
    · have hi' : a.length ≤ i := by omega
      rw [queryOverlapAux_out hi']
      simp only [List.not_mem_nil, false_iff]
      rintro ⟨j, hj, hsub, -⟩
      have := hsub.le_lt
      omega

/-- The root-level characterization of the spec-modelled query: the emitted
labels are exactly the idx fields of slots overlapping the query window. -/
theorem mem_queryOverlap {a : List TreeEntry} (hs : SortedStarts a)
    {qs qe : Int} {k : Nat} :
    k ∈ queryOverlap a qs qe ↔
      ∃ (j : Nat) (hj : j < a.length),
        (a.get ⟨j, hj⟩).idx = k ∧ (a.get ⟨j, hj⟩).start < qe ∧
        qs < (a.get ⟨j, hj⟩).«end» := by
  unfold queryOverlap
  rw [mem_queryOverlapAux hs a.length 0 k (by omega)]
  constructor
  · rintro ⟨j, hj, -, hrest⟩
    exact ⟨j, hj, hrest⟩
  · rintro ⟨j, hj, hrest⟩
    exact ⟨j, hj, InSub.root hj, hrest⟩

instance : IsTotal TreeEntry (fun e1 e2 => e1.start ≤ e2.start) :=
  ⟨fun a b => le_total a.start b.start⟩

instance : IsTrans TreeEntry (fun e1 e2 => e1.start ≤ e2.start) :=
  ⟨fun _ _ _ h h' => le_trans h h'⟩

theorem sortedStarts_sortEntries (entries : List TreeEntry) :
    SortedStarts (sortEntries entries) := by
  have hs : List.Sorted (fun e1 e2 => e1.start ≤ e2.start)
      (sortEntries entries) := List.sorted_insertionSort _ _
  intro i j hi hj hij
  rcases Nat.lt_or_ge i j with hlt | hge
  · exact List.pairwise_iff_get.mp hs ⟨i, hi⟩ ⟨j, hj⟩ hlt
  · have hij' : i = j := by omega
    subst hij'
    exact le_refl _

theorem mem_buildEntries {α : Type} [Span α] (ivs : List α) (j0 : Nat)
    (e : TreeEntry) :
    e ∈ buildEntries ivs j0 ↔
      ∃ (t : Nat) (ht : t < ivs.length),
        e = { start := Span.start (ivs.get ⟨t, ht⟩),
              «end» := Span.«end» (ivs.get ⟨t, ht⟩), idx := j0 + t } := by
  induction ivs generalizing j0 with
  | nil => simp [buildEntries]
  | cons hd tl ih =>
    simp only [buildEntries, List.mem_cons, ih (j0 + 1)]
    constructor
    · rintro (rfl | ⟨t, ht, rfl⟩)
      · exact ⟨0, by simp, by simp⟩
      · refine ⟨t + 1, by simpa using Nat.succ_lt_succ ht, ?_⟩
        simp only [List.get_cons_succ]
        have harith : j0 + 1 + t = j0 + (t + 1) := by omega
        rw [harith]
    · rintro ⟨t, ht, rfl⟩
      cases t with
      | zero => exact Or.inl (by simp)
      | succ t' =>
        have ht' : t' < tl.length := by
          simp only [List.length_cons] at ht
          omega
        refine Or.inr ⟨t', ht', ?_⟩
        simp only [List.get_cons_succ]
        have harith : j0 + 1 + t' = j0 + (t' + 1) := by omega
        rw [harith]

/-- Characterization of the per-contig query at the level of the stored
interval list: label k is emitted exactly when slot k of the list exists and
its span satisfies the half-open overlap test against the query window. -/
theorem mem_queryOverlap_bucket {α : Type} [Span α] (bucket : List α)
    (qs qe : Int) (k : Nat) :
    k ∈ queryOverlap (sortEntries (buildEntries bucket 0)) qs qe ↔
      ∃ hk : k < bucket.length,
        Span.start (bucket.get ⟨k, hk⟩) < qe ∧
        qs < Span.«end» (bucket.get ⟨k, hk⟩) := by
  rw [mem_queryOverlap (sortedStarts_sortEntries _)]
  unfold sortEntries
  constructor
  · rintro ⟨j, hj, hidx, hlt, hgt⟩
    have hmem : (List.insertionSort (fun e1 e2 => e1.start ≤ e2.start)
        (buildEntries bucket 0)).get ⟨j, hj⟩ ∈
        List.insertionSort (fun e1 e2 => e1.start ≤ e2.start)
          (buildEntries bucket 0) := List.get_mem _ _ hj
    rw [(List.perm_insertionSort _ _).mem_iff] at hmem
    obtain ⟨t, ht, hshape⟩ := (mem_buildEntries _ _ _).mp hmem
    rw [hshape] at hidx hlt hgt
    simp only at hidx hlt hgt
    subst hidx
    exact ⟨by simpa using ht, by simpa using hlt, by simpa using hgt⟩
  · rintro ⟨hk, hlt, hgt⟩
    have hmem : TreeEntry.mk (Span.start (bucket.get ⟨k, hk⟩))
        (Span.«end» (bucket.get ⟨k, hk⟩)) k ∈ buildEntries bucket 0 := by
      rw [mem_buildEntries]
      exact ⟨k, hk, by simp⟩
    rw [← (List.perm_insertionSort (fun e1 e2 => e1.start ≤ e2.start)
      (buildEntries bucket 0)).mem_iff] at hmem
    obtain ⟨⟨j, hj⟩, hget⟩ := List.mem_iff_get.mp hmem
    refine ⟨j, hj, ?_, ?_, ?_⟩
    · rw [hget]
    · rw [hget]
      exact hlt
    · rw [hget]
      exact hgt

/-- Master membership characterization for get_overlaps: a value is in the
returned list exactly when it is one of the added values, lives on the
query's contig, and its half-open span intersects the query's. -/
theorem mem_get_overlaps {α : Type} [Span α] [DecidableEq α] (ivs : List α)
    (q : QuerySpan) (S : α) :
    S ∈ (OverlapDetector.ofList ivs).get_overlaps q ↔
      S ∈ ivs ∧ Span.refname S = q.refname ∧
      Span.start S < q.«end» ∧ q.start < Span.«end» S := by
  unfold OverlapDetector.get_overlaps
  cases hl : lookupA q.refname
      (OverlapDetector.ofList ivs)._refname_to_intervals with
  | none =>
    simp only [List.not_mem_nil, false_iff]
    rintro ⟨hmem, href, -⟩
    have hfil : S ∈ ivs.filter (fun v => decide (Span.refname v = q.refname)) :=
      List.mem_filter.mpr ⟨hmem, by simp [href]⟩
    rw [lookupA_ofList_none ivs q.refname hl] at hfil
    simp at hfil
  | some bucket =>
    have hb : bucket = ivs.filter (fun v => decide (Span.refname v = q.refname)) :=
      lookupA_ofList_some ivs q.refname bucket hl
    simp only
    rw [(List.perm_insertionSort _ _).mem_iff, List.mem_dedup, List.mem_filterMap]
    have hSfil : (S ∈ ivs ∧ Span.refname S = q.refname) ↔ S ∈ bucket := by
      rw [hb, List.mem_filter]
      simp
    constructor
    · rintro ⟨k, hk, hsome⟩
      rw [mem_queryOverlap_bucket] at hk
      obtain ⟨hklen, hlt, hgt⟩ := hk
      have hgetS : bucket.get ⟨k, hklen⟩ = S := by
        rw [List.getElem?_eq_some] at hsome
        obtain ⟨h', hS⟩ := hsome
        simpa [List.get_eq_getElem] using hS
      rw [hgetS] at hlt hgt
      have hSb : S ∈ bucket := hgetS ▸ List.get_mem _ _ hklen
      obtain ⟨hmem, href⟩ := hSfil.mpr hSb
      exact ⟨hmem, href, hlt, hgt⟩
    · rintro ⟨hmem, href, hlt, hgt⟩
      have hSb : S ∈ bucket := hSfil.mp ⟨hmem, href⟩
      obtain ⟨⟨k, hklen⟩, hget⟩ := List.mem_iff_get.mp hSb
      refine ⟨k, ?_, ?_⟩
      · rw [mem_queryOverlap_bucket]
        refine ⟨hklen, ?_, ?_⟩
        · rw [hget]
          exact hlt
        · rw [hget]
          exact hgt
      · rw [List.getElem?_eq_some]
        exact ⟨hklen, by simpa [List.get_eq_getElem] using hget⟩

/-- The result of get_overlaps never repeats a value: the Python set
comprehension collapses duplicates before sorting. -/
theorem nodup_get_overlaps {α : Type} [Span α] [DecidableEq α]
    (d : OverlapDetector α) (q : QuerySpan) : (d.get_overlaps q).Nodup := by
  unfold OverlapDetector.get_overlaps
  cases lookupA q.refname d._refname_to_intervals with
  | none => simp
  | some bucket =>
    simp only
    exact (List.perm_insertionSort _ _).symm.nodup (List.nodup_dedup _)

/-- Helper: the query methods agree — overlaps_any reports true exactly when
get_overlaps would return a non-empty list. -/
theorem overlaps_any_iff {α : Type} [Span α] [DecidableEq α]
    (d : OverlapDetector α) (q : QuerySpan) :
    d.overlaps_any q = true ↔ d.get_overlaps q ≠ [] := by
  unfold OverlapDetector.overlaps_any OverlapDetector.get_overlaps
  cases lookupA q.refname d._refname_to_intervals with
  | none => simp
  | some bucket =>
    simp only
    have hbool : ∀ l : List Nat, (!l.isEmpty) = true ↔ l ≠ [] := by
      intro l
      cases l <;> simp
    rw [hbool]
    constructor
    · intro hne hnil
      obtain ⟨k, hk⟩ := List.exists_mem_of_ne_nil _ hne
      obtain ⟨hklen, -, -⟩ := (mem_queryOverlap_bucket bucket _ _ k).mp hk
      have hsome : bucket[k]? = some (bucket.get ⟨k, hklen⟩) := by
        rw [List.getElem?_eq_some]
        exact ⟨hklen, by simp [List.get_eq_getElem]⟩
      have hmem : bucket.get ⟨k, hklen⟩ ∈
          (List.insertionSort (fun x y => sortKey x ≤ sortKey y)
            (((queryOverlap (sortEntries (buildEntries bucket 0))
              q.start q.«end»).filterMap fun k => bucket[k]?).dedup)) := by
        rw [(List.perm_insertionSort _ _).mem_iff, List.mem_dedup,
          List.mem_filterMap]
        exact ⟨k, hk, hsome⟩
      exact List.ne_nil_of_mem hmem hnil
    · intro hne
      obtain ⟨S, hS⟩ := List.exists_mem_of_ne_nil _ hne
      rw [(List.perm_insertionSort _ _).mem_iff, List.mem_dedup,
        List.mem_filterMap] at hS
      obtain ⟨k, hk, -⟩ := hS
      exact List.ne_nil_of_mem hk

/-- C4: For every query Q, the list returned by get_overlaps(Q) is sorted in
non-decreasing order by the key tuple (start ascending, end ascending,
negative-strand flag ascending with an absent strand counting as positive so
positive sorts before negative, refname ascending lexicographically) — the
tuple `sortKey` compared lexicographically. -/
theorem get_overlaps_sorted_by_key {α : Type} [Span α] [DecidableEq α]
    (d : OverlapDetector α) (q : QuerySpan) :
    List.Sorted (fun x y => sortKey x ≤ sortKey y) (d.get_overlaps q) := by
  unfold OverlapDetector.get_overlaps
  cases lookupA q.refname d._refname_to_intervals with
  | none => simp
  | some bucket => exact List.sorted_insertionSort _ _

/-- C5: For every query Q, get_enclosing_intervals(Q) equals get_overlaps(Q)
filtered to stored values with stored.start <= Q.start and
Q.end <= stored.end, get_enclosed(Q) equals get_overlaps(Q) filtered to
stored values with stored.start >= Q.start and stored.end <= Q.end, and both
are sublists of get_overlaps(Q). -/
theorem get_enclosing_enclosed_are_filters {α : Type} [Span α] [DecidableEq α]
    (d : OverlapDetector α) (q : QuerySpan) :
    d.get_enclosing_intervals q =
      (d.get_overlaps q).filter (fun i =>
        decide (Span.start i ≤ q.start) && decide (q.«end» ≤ Span.«end» i)) ∧
    d.get_enclosed q =
      (d.get_overlaps q).filter (fun i =>
        decide (Span.start i ≥ q.start) && decide (Span.«end» i ≤ q.«end»)) ∧
    List.Sublist (d.get_enclosing_intervals q) (d.get_overlaps q) ∧
    List.Sublist (d.get_enclosed q) (d.get_overlaps q) :=
  ⟨rfl, rfl, List.filter_sublist _, List.filter_sublist _⟩

/-- C6: Constructing an Interval fails with a validation error exactly when
start < 0 or end <= start (the error carries no object, so no interval ever
exists in an invalid state), and succeeds — producing the frozen object —
whenever start >= 0 and end > start. -/
theorem interval_make_validation (refname : String) (start «end» : Int)
    (negative : Bool) (name : Option String) :
    ((¬ ∃ i, Interval.make refname start «end» negative name = .ok i) ↔
      start < 0 ∨ «end» ≤ start) ∧
    (0 ≤ start → start < «end» →
      Interval.make refname start «end» negative name =
        .ok { refname := refname, start := start, «end» := «end»,
              negative := negative, name := name }) := by
  unfold Interval.make
  constructor
  · by_cases h1 : start < 0
    · simp [h1]
    · by_cases h2 : «end» ≤ start <;> simp [h1, h2]
  · intro hs he
    have h1 : ¬ start < 0 := by omega
    have h2 : ¬ «end» ≤ start := by omega
    simp [h1, h2]

/-- Witness for the validation claim at a concrete input. -/
theorem interval_make_validation_witness :
    Interval.make "chr1" 1 5 false none =
      .ok { refname := "chr1", start := 1, «end» := 5,
            negative := false, name := none } :=
  (interval_make_validation "chr1" 1 5 false none).2 (by decide) (by decide)

/-- C7: For every pair of valid intervals a and b, a.overlap(b) equals
max(0, min(a.end, b.end) - max(a.start, b.start)) when the reference names
agree and 0 otherwise, and a.length() equals a.end - a.start. -/
theorem interval_overlap_length (a b : Interval)
    (ha : 0 ≤ a.start ∧ a.start < a.«end»)
    (hb : 0 ≤ b.start ∧ b.start < b.«end») :
    a.overlap b =
      (if a.refname = b.refname then
        max 0 (min a.«end» b.«end» - max a.start b.start)
      else 0) ∧
    a.length = a.«end» - a.start := by
  refine ⟨?_, rfl⟩
  unfold Interval.overlap
  by_cases h : a.refname = b.refname
  · simp only [h, ne_eq, not_true_eq_false, if_false, if_true]
    split_ifs <;> omega
  · simp [h]

/-- Witness for the overlap formula at concrete valid intervals. -/
theorem interval_overlap_length_witness :
    (Interval.plain "chr1" 2 9).overlap (Interval.plain "chr1" 5 20) =
      (if ("chr1" : String) = "chr1" then
        max 0 (min (9 : Int) 20 - max (2 : Int) 5) else 0) ∧
    (Interval.plain "chr1" 2 9).length = (9 : Int) - 2 :=
  interval_overlap_length (Interval.plain "chr1" 2 9)
    (Interval.plain "chr1" 5 20) (by decide) (by decide)

/-- C1: For every detector state and every stored interval S and query Q on
the same refname, S is an element of the list returned by get_overlaps(Q) if
and only if max(S.start, Q.start) < min(S.end, Q.end).  Detector states are
exactly the states reachable by adding a list of intervals to a fresh
detector; S and Q are intervals, so their starts precede their ends. -/
theorem get_overlaps_mem_iff_overlap {α : Type} [Span α] [DecidableEq α]
    (ivs : List α) (q : QuerySpan) (S : α)
    (hmem : S ∈ ivs) (href : Span.refname S = q.refname)
    (hS : Span.start S < Span.«end» S) (hq : q.start < q.«end») :
    S ∈ (OverlapDetector.ofList ivs).get_overlaps q ↔
      max (Span.start S) q.start < min (Span.«end» S) q.«end» := by
  rw [mem_get_overlaps]
  constructor
  · rintro ⟨-, -, hlt, hgt⟩
    omega
  · intro h
    refine ⟨hmem, href, ?_, ?_⟩ <;> omega

/-- Witness for the overlap-membership claim at a concrete detector. -/
theorem get_overlaps_mem_iff_overlap_witness :
    (Interval.plain "chr1" 1 10 ∈
      (OverlapDetector.ofList [Interval.plain "chr1" 1 10]).get_overlaps
        ⟨"chr1", 5, 20⟩) ↔
      max (Span.start (Interval.plain "chr1" 1 10)) (5 : Int) <
        min (Span.«end» (Interval.plain "chr1" 1 10)) (20 : Int) :=
  get_overlaps_mem_iff_overlap [Interval.plain "chr1" 1 10] ⟨"chr1", 5, 20⟩
    (Interval.plain "chr1" 1 10) (by decide) (by decide) (by decide) (by decide)

/-- C3 counterexample: the same interval value inserted by two distinct add
calls comes back from get_overlaps once, not twice — the Python set
comprehension collapses value-equal entries — while plain iteration over the
detector still yields it twice. -/
theorem same_value_twice_collapses_in_query :
    (OverlapDetector.ofList
      [Interval.plain "1" 10 100, Interval.plain "1" 10 100]).get_overlaps
        ⟨"1", 10, 100⟩ = [Interval.plain "1" 10 100] ∧
    (OverlapDetector.ofList
      [Interval.plain "1" 10 100, Interval.plain "1" 10 100]).toList =
      [Interval.plain "1" 10 100, Interval.plain "1" 10 100] := by
  decide

/-- C3 (amended): if v was inserted (once or many times) and overlaps the
query, a single get_overlaps call returns v exactly once — query results
carry no duplicate values at all, each distinct stored entry appearing at
most once — even though iteration preserves duplicate insertions. -/
theorem get_overlaps_returns_each_value_once {α : Type} [Span α]
    [DecidableEq α] (ivs : List α) (q : QuerySpan) (v : α)
    (hmem : v ∈ ivs) (href : Span.refname v = q.refname)
    (hlt : Span.start v < q.«end») (hgt : q.start < Span.«end» v) :
    List.count v ((OverlapDetector.ofList ivs).get_overlaps q) = 1 ∧
    ((OverlapDetector.ofList ivs).get_overlaps q).Nodup := by
  have hnd := nodup_get_overlaps (OverlapDetector.ofList ivs) q
  refine ⟨?_, hnd⟩
  have hv : v ∈ (OverlapDetector.ofList ivs).get_overlaps q :=
    (mem_get_overlaps ivs q v).mpr ⟨hmem, href, hlt, hgt⟩
  exact List.count_eq_one_of_mem hnd hv

/-- Witness for the amended duplicate-handling claim: the interval of the
counterexample, inserted twice, is counted once in the query result. -/
theorem get_overlaps_returns_each_value_once_witness :
    List.count (Interval.plain "1" 10 100)
      ((OverlapDetector.ofList
        [Interval.plain "1" 10 100, Interval.plain "1" 10 100]).get_overlaps
          ⟨"1", 10, 100⟩) = 1 ∧
    ((OverlapDetector.ofList
      [Interval.plain "1" 10 100, Interval.plain "1" 10 100]).get_overlaps
        ⟨"1", 10, 100⟩).Nodup :=
  get_overlaps_returns_each_value_once
    [Interval.plain "1" 10 100, Interval.plain "1" 10 100] ⟨"1", 10, 100⟩
    (Interval.plain "1" 10 100) (by decide) (by decide) (by decide) (by decide)

/-- C8: overlaps_any(Q) returns false when no per-contig index exists for
Q.refname, and otherwise returns true if and only if get_overlaps(Q) is
non-empty. -/
theorem overlaps_any_false_or_nonempty {α : Type} [Span α] [DecidableEq α]
    (d : OverlapDetector α) (q : QuerySpan) :
    (lookupA q.refname d._refname_to_intervals = none →
      d.overlaps_any q = false) ∧
    (d.overlaps_any q = true ↔ d.get_overlaps q ≠ []) := by
  constructor
  · intro h
    unfold OverlapDetector.overlaps_any
    rw [h]
  · exact overlaps_any_iff d q

/-- Witness for the overlaps_any claim on the empty detector. -/
theorem overlaps_any_false_or_nonempty_witness :
    (OverlapDetector.ofList ([] : List Interval)).overlaps_any
      ⟨"chr1", 1, 5⟩ = false :=
  (overlaps_any_false_or_nonempty
    (OverlapDetector.ofList ([] : List Interval)) ⟨"chr1", 1, 5⟩).1 (by decide)

/-- C2: evaluation of the model at the failing input.  After adding one
interval on chr1 and issuing a first query, the per-contig indexed flag is
still false (in the code no query method ever writes
_refname_to_indexed, so queries leave the whole detector state unchanged and
the state at the second query is this same state), the query plainly
re-triggers tree.index(), and it does so again on every repetition; only the
results-identical half of the claim holds, trivially, because queries are
pure.  The claim's transition to Indexed (dirty=false) on first query never
happens. -/
theorem indexed_flag_never_cleared :
    (OverlapDetector.ofList [Interval.plain "chr1" 1 10]).query_triggers_rebuild
      ⟨"chr1", 2, 5⟩ = true ∧
    lookupA "chr1"
      (OverlapDetector.ofList
        [Interval.plain "chr1" 1 10])._refname_to_indexed = some false ∧
    (OverlapDetector.ofList [Interval.plain "chr1" 1 10]).get_overlaps
      ⟨"chr1", 2, 5⟩ = [Interval.plain "chr1" 1 10] := by
  decide

/-- C9: BedRecord construction enforces only end > start among the coordinate
invariants — construction succeeds for every chrom and every start, negative
included, as long as end > start — so a negative-start BedRecord exists and
is admitted to (stored in) the overlap detector, while Interval construction
rejects any start < 0. -/
theorem bedrecord_admits_negative_start :
    (∀ (chrom : String) (start «end» : Int), start < «end» →
      BedRecord.make chrom start «end»
          none none none none none none none none none =
        .ok { chrom := chrom, start := start, «end» := «end» }) ∧
    (∀ (refname : String) (start «end» : Int) (negative : Bool)
        (name : Option String), start < 0 →
      ¬ ∃ i, Interval.make refname start «end» negative name = .ok i) ∧
    (OverlapDetector.ofList
        [({ chrom := "chr1", start := -5, «end» := 3 } : BedRecord)]).toList =
      [{ chrom := "chr1", start := -5, «end» := 3 }] := by
  refine ⟨?_, ?_, by decide⟩
  · intro chrom start «end» h
    simp [BedRecord.make, h]
  · intro refname start «end» negative name h
    simp [Interval.make, h]

/-- Witness for the BedRecord-vs-Interval validation claim at a concrete
negative start. -/
theorem bedrecord_admits_negative_start_witness :
    BedRecord.make "chr1" (-1) 5 none none none none none none none none none =
      .ok { chrom := "chr1", start := -1, «end» := 5 } ∧
    ¬ ∃ i, Interval.make "chr1" (-1) 5 false none = .ok i :=
  ⟨bedrecord_admits_negative_start.1 "chr1" (-1) 5 (by decide),
   bedrecord_admits_negative_start.2.1 "chr1" (-1) 5 false none (by decide)⟩

/-- C10 counterexample: a BedRecord with Positive strand but negative start
is constructible (see the C9 theorem), yet the round trip through Interval
raises at Interval construction, so no record with preserved fields is
produced, contrary to the claim's universal quantification over strand-bearing
records. -/
theorem roundtrip_error_on_negative_start :
    roundTrip { chrom := "1", start := -1, «end» := 5,
                strand := some BedStrand.Positive } =
      .error "start is out of range" := by
  rfl

/-- C10 (amended): for every BedRecord r with a non-negative start (and
end > start, the BedRecord class invariant), the round trip
BedRecord.from_interval(Interval.from_bedrecord(r)) preserves chrom, start,
end and name; a Positive or Negative strand is preserved and an absent strand
comes back Positive; and every other optional field of the result is
absent. -/
theorem roundtrip_preserves_fields (r : BedRecord)
    (hstart : 0 ≤ r.start) (hse : r.start < r.«end») :
    roundTrip r =
      .ok { chrom := r.chrom, start := r.start, «end» := r.«end»,
            name := r.name,
            strand := some (if r.strand = some BedStrand.Negative then
              BedStrand.Negative else BedStrand.Positive) } := by
  have h1 : ¬ r.start < 0 := by omega
  have h2 : ¬ r.«end» ≤ r.start := by omega
  have h3 : r.«end» > r.start := hse
  simp [roundTrip, Interval.from_bedrecord, Interval.make, h1, h2,
    Except.bind, BedRecord.from_interval, BedRecord.make, h3,
    decide_eq_true_eq]

/-- Witness for the amended round-trip claim at concrete records of each
strand shape. -/
theorem roundtrip_preserves_fields_witness :
    roundTrip { chrom := "1", start := 0, «end» := 5, name := some "x",
                strand := some BedStrand.Negative } =
      .ok { chrom := "1", start := 0, «end» := 5, name := some "x",
            strand := some BedStrand.Negative } ∧
    roundTrip { chrom := "2", start := 3, «end» := 9 } =
      .ok { chrom := "2", start := 3, «end» := 9,
            strand := some BedStrand.Positive } := by
  constructor
  · have h := roundtrip_preserves_fields
      { chrom := "1", start := 0, «end» := 5, name := some "x",
        strand := some BedStrand.Negative } (by decide) (by decide)
    simpa using h
  · have h := roundtrip_preserves_fields
      { chrom := "2", start := 3, «end» := 9 } (by decide) (by decide)
    simpa using h

end Pybedlite
